import Mathlib

/-!
Verification development for the bmper raster codec and palette engine.

The Lean definitions below are shallow embeddings of the Rust sources:
  src/encoding.rs  (RLE8 codec on `bmp::Bitmap`)
  src/pcx.rs       (scanline run-length decoder, median-cut palette cubes)
  src/bmp.rs       (border compositor, logo overlay, bitmap structures)

Modelling conventions:
  - bytes (u8) are `Nat` values; the embedding applies `% 256` exactly where
    the Rust code performs wrapping u8 arithmetic;
  - i32 values are `Int`; Rust's truncating `/` and `%` on i32 are `Int.tdiv`
    and `Int.tmod`; casts `as usize` of values that are nonnegative in every
    reachable execution are `Int.toNat`;
  - iterators over byte buffers become explicit list recursion; loops whose
    step drops a variable number of elements take an explicit fuel argument
    which the wrappers instantiate with the buffer length, an upper bound on
    the number of iterations (every iteration consumes at least one element),
    so the fuel never runs out and the recursion is structural and executable;
  - the injected random source of the border compositor is a stream
    `rng : Nat -> Nat` consumed at an explicit draw index, one draw per
    `rng.next_u32()` call;
  - Rust f64 arithmetic in `Cube::split` multiplies exact integer channel
    sums by the constants 0.2126 / 0.7152 / 0.0722; the embedding scales all
    three products by 10^4, giving the exact integer weights 2126 / 7152 /
    722, so that every comparison between scores is decided exactly.
-/

namespace Bmper

/-! ## RLE8 codec, from src/encoding.rs

`Rle8::decode` walks `self.data` two bytes at a time with a cursor `(x, y)`
starting at `(0, height - 1)` and builds `decoded_bm` by appending.  The
embedding `rle8DecodeGo` returns the built buffer together with the final
`(x, y)`; `rle8Pad` performs the final `width - x + width * y` zero resize.
A `break` on a missing byte is an immediate return of the state.  In absolute
mode the Rust loop pushes `((second + 1) / 2) * 2` bytes (u8 arithmetic, so
`second + 1` wraps at 256) into the output and then advances `x += second`. -/

def rle8DecodeGo : ℕ → List ℕ → Int → Int → Int → List ℕ → List ℕ × Int × Int
  | 0, _, _, x, y, acc => (acc, x, y)
  | _ + 1, [], _, x, y, acc => (acc, x, y)
  | _ + 1, [_], _, x, y, acc => (acc, x, y)
  | fuel + 1, first :: second :: rest, w, x, y, acc =>
    if first = 0 then
      if second = 1 then (acc, x, y)
      else if second = 0 then
        let acc1 := if x > 0 ∧ w - x > 0 then acc ++ List.replicate (w - x).toNat 0 else acc
        rle8DecodeGo fuel rest w 0 (y - 1) acc1
      else if second = 2 then
        match rest with
        | [] => (acc, x, y)
        | [_] => (acc, x, y)
        | dx :: dy :: rest2 =>
          rle8DecodeGo fuel rest2 w (x + dx) (y - dy)
            (acc ++ List.replicate ((dx : Int) + (dy : Int) * w).toNat 0)
      else
        let wp := ((second + 1) % 256) / 2 * 2
        rle8DecodeGo fuel (rest.drop wp) w (x + second) y (acc ++ rest.take wp)
    else
      let acc1 := acc ++ List.replicate first second
      let x1 := x + (first : Int)
      if x1 ≥ w then rle8DecodeGo fuel rest w (x1.tmod w) (y - 1) acc1
      else rle8DecodeGo fuel rest w x1 y acc1

def rle8Pad (w : Int) (r : List ℕ × Int × Int) : List ℕ :=
  if w - r.2.1 + w * r.2.2 > 0 then r.1 ++ List.replicate (w - r.2.1 + w * r.2.2).toNat 0
  else r.1

def rle8Decode (data : List ℕ) (w hgt : Int) : List ℕ :=
  rle8Pad w (rle8DecodeGo data.length data w 0 (hgt - 1) [])

/-- The compression tags of `bmp::BMPCompression`. -/
inductive BMPCompression
  | RGB
  | RLE8
  | RLE4
  | BITFIELDS
  | JPEG
  | PNG
  deriving DecidableEq, Repr

/-- `bmp::Bitmap`: the raw byte buffer together with the marker recording the
compression the buffer was decoded from (`None` while still compressed). -/
structure Bitmap where
  data : List ℕ
  decoded_from : Option BMPCompression
  deriving DecidableEq, Repr

/-- `<bmp::Bitmap as Rle8>::decode`: `assert!(height > 0)` (modelled as the
`none` result), then an early return when `self.decoded` is already set,
otherwise run the decoder and set the marker to `RLE8`. -/
def rle8DecodeBitmap (bm : Bitmap) (w hgt : Int) : Option Bitmap :=
  if hgt ≤ 0 then none
  else
    match bm.decoded_from with
    | some _ => some bm
    | none => some { data := rle8Decode bm.data w hgt, decoded_from := some BMPCompression.RLE8 }

/-- Error kinds named by the specification for the run-length decoders. -/
inductive Rle8Error
  | truncatedStream
  | malformedToken
  deriving DecidableEq, Repr

/-- Modelled from the spec: the §4.1 decode contract, used only to compare the
code against the specified failure behaviour.  The spec decoder consumes the
same token grammar but "fails with TruncatedStream if a token's second byte or
run payload is missing", discards the word-alignment pad byte of an odd
absolute run, and zero-fills skipped pixels. -/
def rle8DecodeSpecGo : ℕ → List ℕ → Int → Int → Int → List ℕ →
    Except Rle8Error (List ℕ × Int × Int)
  | 0, _, _, x, y, acc => .ok (acc, x, y)
  | _ + 1, [], _, x, y, acc => .ok (acc, x, y)
  | _ + 1, [_], _, _, _, _ => .error .truncatedStream
  | fuel + 1, first :: second :: rest, w, x, y, acc =>
    if first = 0 then
      if second = 1 then .ok (acc, x, y)
      else if second = 0 then
        rle8DecodeSpecGo fuel rest w 0 (y - 1) (acc ++ List.replicate (w - x).toNat 0)
      else if second = 2 then
        match rest with
        | [] => .error .truncatedStream
        | [_] => .error .truncatedStream
        | dx :: dy :: rest2 =>
          rle8DecodeSpecGo fuel rest2 w (x + dx) (y - dy)
            (acc ++ List.replicate ((dx : Int) + (dy : Int) * w).toNat 0)
      else
        let padded := second + second % 2
        if rest.length < padded then .error .truncatedStream
        else
          rle8DecodeSpecGo fuel (rest.drop padded) w (x + second) y (acc ++ rest.take second)
    else
      let acc1 := acc ++ List.replicate first second
      let x1 := x + (first : Int)
      if x1 ≥ w then rle8DecodeSpecGo fuel rest w (x1.tmod w) (y - 1) acc1
      else rle8DecodeSpecGo fuel rest w x1 y acc1

/-- Modelled from the spec: §4.1 decode contract, outer wrapper (final zero
padding of the undecoded remainder once the stream ends). -/
def rle8DecodeSpec (data : List ℕ) (w hgt : Int) : Except Rle8Error (List ℕ) :=
  (rle8DecodeSpecGo data.length data w 0 (hgt - 1) []).map (rle8Pad w)

/-- Repeat tokens for a run of `k` copies of `v`, each token bounded at a count
of 255 (`count ≥ 1`, so a token never encodes a run of length 0). -/
def rle8RepeatTokens : ℕ → ℕ → ℕ → List ℕ
  | 0, _, _ => []
  | _ + 1, 0, _ => []
  | fuel + 1, k, v => if k > 255 then 255 :: v :: rle8RepeatTokens fuel (k - 255) v else [k, v]

/-- Modelled from the spec: absolute-mode tokens for a literal byte sequence,
"bounded at 255 bytes per token"; an odd-length token is followed by one zero
word-alignment pad byte.  A leftover shorter than 3 bytes cannot be an
absolute-mode token (second bytes 0, 1, 2 are escapes), so it is emitted as
repeat tokens of count 1. -/
def rle8LiteralTokens : ℕ → List ℕ → List ℕ
  | 0, _ => []
  | _ + 1, [] => []
  | fuel + 1, lit =>
    if lit.length < 3 then lit.foldr (fun b acc => 1 :: b :: acc) []
    else if lit.length ≤ 255 then
      0 :: lit.length :: (lit ++ if lit.length % 2 = 1 then [0] else [])
    else (0 :: 254 :: lit.take 254) ++ rle8LiteralTokens fuel (lit.drop 254)

/-- Modelled from the spec: encode one scanline, grouping "runs of ≥3
identical bytes into repeat tokens and remaining byte sequences into
absolute-mode tokens".  `lit` accumulates the pending literal sequence. -/
def rle8EncLineGo : ℕ → List ℕ → List ℕ → List ℕ
  | 0, lit, _ => rle8LiteralTokens lit.length lit
  | _ + 1, lit, [] => rle8LiteralTokens lit.length lit
  | fuel + 1, lit, c :: cs =>
    let run := (c :: cs).takeWhile (fun b => b = c)
    if 3 ≤ run.length then
      rle8LiteralTokens lit.length lit ++ rle8RepeatTokens run.length run.length c ++
        rle8EncLineGo fuel [] ((c :: cs).drop run.length)
    else rle8EncLineGo fuel (lit ++ run) ((c :: cs).drop run.length)

/-- Split a raster buffer into scanlines of `w` bytes. -/
def chunkRowsGo : ℕ → ℕ → List ℕ → List (List ℕ)
  | 0, _, _ => []
  | _ + 1, _, [] => []
  | fuel + 1, w, l => l.take w :: chunkRowsGo fuel w (l.drop w)

/-- Modelled from the spec: the RLE8 encoder (`Rle8::encode` is
`unimplemented!()` in src/encoding.rs; §4.1/§9 of the spec define the
canonical encoding).  Each scanline is encoded by `rle8EncLineGo`, scanlines
are separated by the end-of-line escape `0x00 0x00`, and the stream ends with
the end-of-bitmap escape `0x00 0x01`. -/
def rle8Encode (raster : List ℕ) (w : Int) : List ℕ :=
  let lines := chunkRowsGo (raster.length + 1) w.toNat raster
  List.intercalate [0, 0] (lines.map (fun line => rle8EncLineGo line.length [] line)) ++ [0, 1]

/-! ## Scanline run-length decoder, from src/pcx.rs

`decode_line` reads bytes from the reader while `idx > 0` (`idx` starts at
`row_stride` as i32).  A byte whose top two bits are set (`byte & 0xC0 ==
0xC0`) is a run header: the low six bits (`byte & !0xC0`) give the repeat
count for the next byte; any other byte is one literal.  `idx` is decremented
by the run count and the run is appended; a failing `read_u8` propagates an
error (`none` here).  The embedding also returns the unread remainder of the
input, standing for the reader's position. -/

def decodeLineGo : List ℕ → Int → List ℕ → Option (List ℕ × List ℕ)
  | [], idx, acc => if idx > 0 then none else some (acc, [])
  | b :: rest, idx, acc =>
    if idx > 0 then
      if b &&& 192 = 192 then
        match rest with
        | [] => none
        | v :: rest2 =>
          decodeLineGo rest2 (idx - (b &&& 63 : ℕ)) (acc ++ List.replicate (b &&& 63) v)
      else decodeLineGo rest (idx - 1) (acc ++ [b])
    else some (acc, b :: rest)

def decodeLine (inp : List ℕ) (rowStride : ℕ) : Option (List ℕ) :=
  (decodeLineGo inp (rowStride : Int) []).map Prod.fst

/-! ## Median-cut palette cubes, from src/pcx.rs

`Cube::split` sums the red, green and blue components of `self.colors`,
multiplies each sum by the luma constant of its channel, and picks `max`:
`max = red; if red < green { max = green } else if red < blue { max = blue }`
— note that `green` and `blue` are never compared with one another.  It then
sorts `self.colors` by the tuple keyed on the channel whose score equals
`max` (Rust tuple comparison is lexicographic; `sort_by` is stable, and two
colors with equal full key are identical, so any order-respecting sort gives
the same list).  Finally `split_off(len / 2)` leaves the first half in the
cube and returns the second half as the new cube. -/

structure RGBTriple where
  red : ℕ
  green : ℕ
  blue : ℕ
  deriving DecidableEq, Repr

/-- Channel score: luma weight times the channel sum over the cube's colors,
scaled by 10^4 so the f64 weight 0.2126 becomes the integer 2126. -/
def lumaRed (cs : List RGBTriple) : ℕ := 2126 * (cs.map RGBTriple.red).sum

/-- Channel score for green: weight 0.7152, scaled by 10^4. -/
def lumaGreen (cs : List RGBTriple) : ℕ := 7152 * (cs.map RGBTriple.green).sum

/-- Channel score for blue: weight 0.0722, scaled by 10^4. -/
def lumaBlue (cs : List RGBTriple) : ℕ := 722 * (cs.map RGBTriple.blue).sum

/-- Lexicographic comparison of the three-channel sort keys, as Rust compares
tuples `(a, b, c)`. -/
def lexLe (p q : ℕ × ℕ × ℕ) : Bool :=
  if p.1 < q.1 then true
  else if q.1 < p.1 then false
  else if p.2.1 < q.2.1 then true
  else if q.2.1 < p.2.1 then false
  else decide (p.2.2 ≤ q.2.2)

/-- The sort key of `Cube::split`'s comparator: dispatch on which channel
score the chosen `max` value equals, testing red first, then green. -/
def cubeKey (m r g : ℕ) (c : RGBTriple) : ℕ × ℕ × ℕ :=
  if m = r then (c.red, c.green, c.blue)
  else if m = g then (c.green, c.red, c.blue)
  else (c.blue, c.green, c.red)

/-- Order-preserving insertion used to model the stable `sort_by`. -/
def insertBy (le : RGBTriple → RGBTriple → Bool) (c : RGBTriple) :
    List RGBTriple → List RGBTriple
  | [] => [c]
  | d :: ds => if le c d then c :: d :: ds else d :: insertBy le c ds

/-- Insertion sort with a boolean comparator (a stable sort, as `sort_by`). -/
def sortBy (le : RGBTriple → RGBTriple → Bool) : List RGBTriple → List RGBTriple
  | [] => []
  | c :: cs => insertBy le c (sortBy le cs)

/-- The sorting step of `Cube::split`: compute the three channel scores, pick
`max` by the source's two comparisons, and sort by the dispatched key. -/
def sortColors (cs : List RGBTriple) : List RGBTriple :=
  let r := lumaRed cs
  let g := lumaGreen cs
  let b := lumaBlue cs
  let m := if r < g then g else if r < b then b else r
  sortBy (fun a c => lexLe (cubeKey m r g a) (cubeKey m r g c)) cs

/-- `Cube::split`: the cube keeps the first half of the sorted colors, the
returned cube receives the second half (`split_off(len / 2)`). -/
def Cube.split (cs : List RGBTriple) : List RGBTriple × List RGBTriple :=
  ((sortColors cs).take (cs.length / 2), (sortColors cs).drop (cs.length / 2))

/-- One round of `Palette::round_pcx_palette`'s splitting loop: every cube is
split (unconditionally); the mutated originals keep their first halves and
the collected new cubes (the second halves) are appended after them. -/
def splitRound (cubes : List (List RGBTriple)) : List (List RGBTriple) :=
  cubes.map (fun c => (Cube.split c).1) ++ cubes.map (fun c => (Cube.split c).2)

/-- The `for step in 1..(bit_count + 1)` splitting loop: `bitCount` rounds. -/
def roundCubes : ℕ → List (List RGBTriple) → List (List RGBTriple)
  | 0, cubes => cubes
  | k + 1, cubes => roundCubes k (splitRound cubes)

/-- `Palette::round_pcx_palette` up to the end of splitting: seed a single
cube with the distinct palette colors (the `HashSet` iterates in an
unspecified order; the embedding keeps first occurrences in palette order),
then run `bitCount` splitting rounds. -/
def roundPcxCubes (bitCount : ℕ) (palette : List RGBTriple) : List (List RGBTriple) :=
  roundCubes bitCount [palette.dedup]

/-- The split axis the specification prescribes: the channel with the highest
score, ties resolved in favour of red, then green, then blue. -/
inductive Axis
  | red
  | green
  | blue
  deriving DecidableEq, Repr

/-- Modelled from the spec: "pick the channel with the highest such score as
split axis", with "tie-break on equal axis scores favors the first channel in
evaluation order (R, then G, then B)". -/
def specAxis (cs : List RGBTriple) : Axis :=
  if lumaGreen cs ≤ lumaRed cs ∧ lumaBlue cs ≤ lumaRed cs then .red
  else if lumaBlue cs ≤ lumaGreen cs then .green
  else .blue

/-- The axis the code actually sorts along, read off from the two comparisons
`red < green` and `red < blue` of `Cube::split`. -/
def chosenAxis (cs : List RGBTriple) : Axis :=
  if lumaRed cs < lumaGreen cs then .green
  else if lumaRed cs < lumaBlue cs then .blue
  else .red

/-- The sort key determined by an axis: the axis channel first, then the
remaining two channels in the fixed priority order of the source comparator. -/
def axisKey : Axis → RGBTriple → ℕ × ℕ × ℕ
  | .red, c => (c.red, c.green, c.blue)
  | .green, c => (c.green, c.red, c.blue)
  | .blue, c => (c.blue, c.green, c.red)

/-! ## Logo overlay, from src/bmp.rs

`Bitmap::add_logo` first rejects a destination depth other than 24 bpp
(`InvalidInput`), then loads the logo's header and pixel list from the file
collaborator (passed in here as `logoW`, `logoH`, `logoPix`), rejects a logo
larger than the destination minus the 15-pixel margin ("Logo bitmap too
large"), and only after these checks walks the destination bytes three at a
time overwriting the bottom-right region.  The embedding returns the error
alongside the buffer, so an error result carries the untouched input bytes. -/

/-- `bmp::RGBQuad` (storage order blue, green, red, reserved). -/
structure RGBQuad where
  rgb_blue : ℕ
  rgb_green : ℕ
  rgb_red : ℕ
  rgb_reserved : ℕ
  deriving DecidableEq, Repr

/-- The two `io::ErrorKind::InvalidInput` failures of `Bitmap::add_logo`. -/
inductive LogoError
  | invalidDepth
  | logoTooLarge
  deriving DecidableEq, Repr

/-- The copy loop of `Bitmap::add_logo`: bytes are taken three at a time; a
pixel inside the bottom-right region receives the next logo pixel's red,
green and blue components; at the end of each destination row the row padding
bytes are skipped and `x_logo`/`y_logo` advance when the row touched the
logo.  A trailing group of fewer than three bytes is left unchanged. -/
def addLogoGo (w hgt logoW logoH bytesPad : Int) :
    ℕ → List ℕ → List RGBQuad → Int → Int → Int → Int → List ℕ
  | 0, l, _, _, _, _, _ => l
  | fuel + 1, b1 :: b2 :: b3 :: rest, logoPix, x, y, xl, yl =>
    let t :=
      if x ≥ w - logoW - 15 ∧ y ≥ hgt - logoH - 15 then
        if xl < logoW ∧ yl < logoH then
          match logoPix with
          | p :: ps => (p.rgb_red, p.rgb_green, p.rgb_blue, ps, xl + 1)
          | [] => (b1, b2, b3, ([] : List RGBQuad), xl)
        else (b1, b2, b3, logoPix, xl)
      else (b1, b2, b3, logoPix, xl)
    match t with
    | (n1, n2, n3, lp, xl1) =>
      if x + 1 ≥ w then
        n1 :: n2 :: n3 ::
          (rest.take bytesPad.toNat ++
            addLogoGo w hgt logoW logoH bytesPad fuel (rest.drop bytesPad.toNat) lp 0 (y + 1)
              (if xl1 > 0 then 0 else xl1) (if xl1 > 0 then yl + 1 else yl))
      else n1 :: n2 :: n3 :: addLogoGo w hgt logoW logoH bytesPad fuel rest lp (x + 1) y xl1 yl
  | _ + 1, l, _, _, _, _, _ => l

/-- `Bitmap::add_logo`: depth check, size check, then the copy loop. -/
def addLogo (data : List ℕ) (w hgt : Int) (bitCount : Int) (logoW logoH : Int)
    (logoPix : List RGBQuad) : Option LogoError × List ℕ :=
  if bitCount ≠ 24 then (some .invalidDepth, data)
  else if logoW > w - 15 ∨ logoH > hgt - 15 then (some .logoTooLarge, data)
  else
    (none,
      addLogoGo w hgt logoW logoH ((bitCount * w + 31).tdiv 32 * 4 - (w * bitCount).tdiv 8)
        data.length data logoPix 0 0 0 0)

/-! ## Border compositor, from src/bmp.rs

`Bitmap::border` walks the buffer with a cursor `(x, y)` and overwrites the
pixels matching the border condition with random draws.  For depths 1/4/8
the condition is `x <= bw || x > width - bw || y <= bw || y > height - bw`
(non-strict on the low side), for depths 16/24 it is the strict
`x < bw || ...`.  At the end of each row `bytes_pad` buffer bytes are skipped
(left unmodified).  Depths 0 and 32 hit `unimplemented!` and anything else
`unreachable!`; both are the `none` result.  Random draws are
`rng.next_u32() % max_color`, modelled as `rng i % maxColor` at draw index
`i`.  In the 1/4/8 path, for the pixel slot with `idx` counted down by `k`
(`idx = pixels - k`), the shift is `(pixels - idx) * bc = k * bc`; the write
`*b = *b & !((max_color-1) << shift) as u8 | (mask << shift)` becomes
`b &&& (255 - (((maxColor-1) <<< shift) % 256)) ||| ((mask <<< shift) % 256)`
(the truncation of a u32 complement to u8 is 255 minus the low byte). -/

/-- The per-byte pixel loop of the 1/4/8-bpp border path: `k` pixel slots
remain in the current byte; returns the new byte, cursor, draw index, and
whether the row ended (ending the byte's loop early and requesting the pad
skip). -/
def borderLowPix (w hgt bw bc : Int) (maxColor : ℕ) (rng : ℕ → ℕ) :
    ℕ → ℕ → Int → Int → ℕ → ℕ × Int × Int × ℕ × Bool
  | 0, b, x, y, i => (b, x, y, i, false)
  | k + 1, b, x, y, i =>
    let s :=
      if x ≤ bw ∨ x > w - bw ∨ y ≤ bw ∨ y > hgt - bw then
        ((b &&& (255 - (((maxColor - 1) <<< (k * bc.toNat)) % 256))) |||
            (((rng i % maxColor) <<< (k * bc.toNat)) % 256),
          i + 1)
      else (b, i)
    if x + 1 ≥ w then (s.1, 0, y + 1, s.2, true)
    else borderLowPix w hgt bw bc maxColor rng k s.1 (x + 1) y s.2

/-- The 1/4/8-bpp border loop over the buffer bytes. -/
def borderLowGo (w hgt bw bc bytesPad : Int) (pixels maxColor : ℕ) (rng : ℕ → ℕ) :
    ℕ → List ℕ → Int → Int → ℕ → List ℕ
  | 0, l, _, _, _ => l
  | _ + 1, [], _, _, _ => []
  | fuel + 1, b :: rest, x, y, i =>
    match borderLowPix w hgt bw bc maxColor rng pixels b x y i with
    | (b1, x1, y1, i1, ended) =>
      if ended then
        b1 :: (rest.take bytesPad.toNat ++
          borderLowGo w hgt bw bc bytesPad pixels maxColor rng fuel (rest.drop bytesPad.toNat)
            x1 y1 i1)
      else b1 :: borderLowGo w hgt bw bc bytesPad pixels maxColor rng fuel rest x1 y1 i1

/-- The 16-bpp border loop: two bytes per pixel, three five-bit draws packed
into them; a trailing single byte is consumed but left unchanged. -/
def border16Go (w hgt bw bytesPad : Int) (rng : ℕ → ℕ) :
    ℕ → List ℕ → Int → Int → ℕ → List ℕ
  | 0, l, _, _, _ => l
  | fuel + 1, b1 :: b2 :: rest, x, y, i =>
    let s :=
      if x < bw ∨ x > w - bw ∨ y < bw ∨ y > hgt - bw then
        ((((rng i % 32 &&& 31) <<< 2) % 256) ||| ((rng (i + 1) % 32 &&& 31) >>> 3),
          ((((rng (i + 1) % 32 &&& 31) <<< 5) % 256) ||| (rng (i + 2) % 32 &&& 31), i + 3))
      else (b1, b2, i)
    if x + 1 ≥ w then
      s.1 :: s.2.1 ::
        (rest.take bytesPad.toNat ++
          border16Go w hgt bw bytesPad rng fuel (rest.drop bytesPad.toNat) 0 (y + 1) s.2.2)
    else s.1 :: s.2.1 :: border16Go w hgt bw bytesPad rng fuel rest (x + 1) y s.2.2
  | _ + 1, l, _, _, _ => l

/-- The 24-bpp border loop: three bytes per pixel, each drawn as
`rng.next_u32() % u16::MAX` truncated to u8; trailing one or two bytes are
consumed but left unchanged. -/
def border24Go (w hgt bw bytesPad : Int) (rng : ℕ → ℕ) :
    ℕ → List ℕ → Int → Int → ℕ → List ℕ
  | 0, l, _, _, _ => l
  | fuel + 1, b1 :: b2 :: b3 :: rest, x, y, i =>
    let s :=
      if x < bw ∨ x > w - bw ∨ y < bw ∨ y > hgt - bw then
        ((rng i % 65535) % 256,
          ((rng (i + 1) % 65535) % 256, ((rng (i + 2) % 65535) % 256, i + 3)))
      else (b1, (b2, (b3, i)))
    if x + 1 ≥ w then
      s.1 :: s.2.1 :: s.2.2.1 ::
        (rest.take bytesPad.toNat ++
          border24Go w hgt bw bytesPad rng fuel (rest.drop bytesPad.toNat) 0 (y + 1) s.2.2.2)
    else s.1 :: s.2.1 :: s.2.2.1 :: border24Go w hgt bw bytesPad rng fuel rest (x + 1) y s.2.2.2
  | _ + 1, l, _, _, _ => l

/-- `bytes_pad = (bc * width + 31) / 32 * 4 - width * bc / 8` (truncating i32
division). -/
def borderBytesPad (bc w : Int) : Int := (bc * w + 31).tdiv 32 * 4 - (w * bc).tdiv 8

/-- `Bitmap::border`, dispatching on `bit_count`: the 1/4/8 path with
`pixels = 8 / bc` and `max_color = 2^bc`, the 16 path, the 24 path, and
`none` for the unimplemented/unreachable depths. -/
def Bitmap.border (data : List ℕ) (borderWidth w hgt bitCount : Int) (rng : ℕ → ℕ) :
    Option (List ℕ) :=
  if bitCount = 1 ∨ bitCount = 4 ∨ bitCount = 8 then
    some (borderLowGo w hgt borderWidth bitCount (borderBytesPad bitCount w)
      ((8 : Int).tdiv bitCount).toNat (2 ^ bitCount.toNat) rng data.length data 0 0 0)
  else if bitCount = 16 then
    some (border16Go w hgt borderWidth (borderBytesPad bitCount w) rng data.length data 0 0 0)
  else if bitCount = 24 then
    some (border24Go w hgt borderWidth (borderBytesPad bitCount w) rng data.length data 0 0 0)
  else none

/-- The 32-bit-aligned row stride of the raster data model:
`((bits_per_pixel * width + 31) / 32) * 4` bytes per row. -/
def rowStrideOf (bc w : Int) : Int := (bc * w + 31).tdiv 32 * 4

/-! ## Theorems about the RLE8 codec -/

/-- Claim C1 (code bug): the round trip `decode(encode R)` does not return `R`
bit-for-bit.  For the raster `R = [1,2,3]` (width 3, height 1) the spec
encoder produces the odd absolute-mode token `[0x00,0x03,1,2,3]` plus one
word-alignment pad byte, and `Rle8::decode` pushes that pad byte into the
output, yielding the 4-byte buffer `[1,2,3,0] ≠ R`. -/
theorem rle8_roundtrip_fails_on_odd_absolute_run :
    rle8Encode [1, 2, 3] 3 = [0, 3, 1, 2, 3, 0, 0, 1] ∧
      rle8Decode (rle8Encode [1, 2, 3] 3) 3 1 = [1, 2, 3, 0] ∧
      rle8Decode (rle8Encode [1, 2, 3] 3) 3 1 ≠ [1, 2, 3] := by
  refine ⟨by decide, by decide, by decide⟩

/-- Claim C2 (code bug): the decoded buffer is not always `width * height`
bytes and the absolute-mode word-alignment pad byte is emitted into the
output.  On input `[0x00,0x03,0xAA,0xBB,0xCC,0xDD]` with `width = 5`,
`height = 1`, the decoder pushes all four bytes `AA BB CC DD` (the pad byte
`DD` included), advances `x` by only 3, and then appends the final
`width - x` padding, producing 6 bytes instead of `5 * 1 = 5`. -/
theorem rle8_decode_size_bug :
    rle8Decode [0, 3, 170, 187, 204, 221] 5 1 = [170, 187, 204, 221, 0, 0] ∧
      (rle8Decode [0, 3, 170, 187, 204, 221] 5 1).length = 6 := by
  refine ⟨by decide, by decide⟩

/-- Counterexample for claim C3: on the one-byte stream `[0x05]` the token's
second byte is missing; the spec decoder fails with `TruncatedStream`, but
`Rle8::decode` merely breaks out of its loop and succeeds, returning the
zero-filled 2×1 raster `[0,0]`. -/
theorem rle8_decode_no_truncation_error :
    rle8DecodeSpec [5] 2 1 = Except.error Rle8Error.truncatedStream ∧
      rle8Decode [5] 2 1 = [0, 0] := by
  exact ⟨rfl, by decide⟩

/-- Claim C3 (corrected): the decoder never fails at all.  When a token's
second byte is missing it stops decoding and zero-fills every remaining pixel:
a stream consisting of a single byte decodes, for any positive dimensions, to
the all-zero `width * height` buffer. -/
theorem rle8_decode_truncated_token_zero_fills (b : ℕ) (w hgt : Int)
    (hw : 0 < w) (hh : 0 < hgt) :
    rle8Decode [b] w hgt = List.replicate (w * hgt).toNat 0 := by
  have h1 : rle8DecodeGo 1 [b] w 0 (hgt - 1) [] = ([], 0, hgt - 1) := rfl
  have h2 : w - 0 + w * (hgt - 1) = w * hgt := by ring
  unfold rle8Decode rle8Pad
  simp only [List.length_singleton, h1, h2]
  rw [if_pos (mul_pos hw hh)]
  simp

/-- Instantiation of the truncated-token behaviour at `b = 5`, `w = 3`,
`hgt = 2`. -/
theorem rle8_decode_truncated_token_zero_fills_witness :
    rle8Decode [5] 3 2 = List.replicate ((3 : Int) * 2).toNat 0 :=
  rle8_decode_truncated_token_zero_fills 5 3 2 (by decide) (by decide)

/-- Claim C4 (confirmed): decoding `[0x03,0x05,0x00,0x00]` (a run of three
pixels valued 5, then end-of-line) against width 5 yields the scanline
`[5,5,5,0,0]` — the first five bytes of the output, for every height ≥ 1. -/
theorem rle8_decode_run_then_eol_scanline (hgt : Int) (hh : 1 ≤ hgt) :
    (rle8Decode [3, 5, 0, 0] 5 hgt).take 5 = [5, 5, 5, 0, 0] := by
  have h1 : rle8DecodeGo 4 [3, 5, 0, 0] 5 0 (hgt - 1) [] =
      ([5, 5, 5, 0, 0], 0, hgt - 1 - 1) := rfl
  unfold rle8Decode rle8Pad
  simp only [List.length_cons, List.length_nil, h1]
  rcases eq_or_lt_of_le hh with h2 | h2
  · rw [if_neg (by rw [← h2]; decide)]
    decide
  · have h3 : (5 : Int) - 0 + 5 * (hgt - 1 - 1) > 0 := by linarith
    rw [if_pos h3]
    exact List.take_left [5, 5, 5, 0, 0] _

/-- Instantiation of the decoded scanline at height 1. -/
theorem rle8_decode_run_then_eol_scanline_witness :
    (rle8Decode [3, 5, 0, 0] 5 1).take 5 = [5, 5, 5, 0, 0] :=
  rle8_decode_run_then_eol_scanline 1 (by decide)

/-- Claim C10 (confirmed): at the public interface `Rle8::decode` is
idempotent.  Under the asserted precondition `height > 0`: when the
decoded-from marker is already set the call returns immediately with both the
data buffer and the marker unchanged, and when the marker is unset a
successful decode replaces the data and sets the marker to `RLE8`. -/
theorem rle8_decode_bitmap_idempotent (bm : Bitmap) (w hgt : Int) (hh : 0 < hgt) :
    (∀ c, bm.decoded_from = some c → rle8DecodeBitmap bm w hgt = some bm) ∧
      (bm.decoded_from = none →
        rle8DecodeBitmap bm w hgt =
          some { data := rle8Decode bm.data w hgt, decoded_from := some BMPCompression.RLE8 }) := by
  constructor
  · intro c hc
    unfold rle8DecodeBitmap
    rw [if_neg (by omega), hc]
  · intro hc
    unfold rle8DecodeBitmap
    rw [if_neg (by omega), hc]

/-- Instantiation of decode idempotence: a bitmap already marked as decoded
from RLE8 is returned untouched, and an unmarked empty bitmap is decoded and
marked. -/
theorem rle8_decode_bitmap_idempotent_witness :
    rle8DecodeBitmap ⟨[9, 9], some BMPCompression.RLE8⟩ 2 1 =
        some ⟨[9, 9], some BMPCompression.RLE8⟩ ∧
      rle8DecodeBitmap ⟨[], none⟩ 2 1 = some ⟨[0, 0], some BMPCompression.RLE8⟩ := by
  constructor
  · exact (rle8_decode_bitmap_idempotent ⟨[9, 9], some BMPCompression.RLE8⟩ 2 1 (by decide)).1
      BMPCompression.RLE8 rfl
  · have h := (rle8_decode_bitmap_idempotent ⟨[], none⟩ 2 1 (by decide)).2 rfl
    rw [h]
    decide

/-! ## Theorems about the scanline decoder -/

/-- Length invariant of the `decode_line` loop: on success the output holds
`acc.length + idx` bytes at least, and overshoots `idx` by less than 63 (the
largest run count a six-bit header can carry). -/
theorem decodeLineGo_length_bound (inp : List ℕ) (idx : Int) (acc : List ℕ) :
    ∀ out rest, decodeLineGo inp idx acc = some (out, rest) →
    (acc.length : Int) + idx ≤ out.length ∧ (out.length : Int) ≤ acc.length + max (idx + 62) 0 := by
  induction inp, idx, acc using decodeLineGo.induct with
  | case1 idx acc hidx =>
    intro out rest h
    simp only [decodeLineGo, if_pos hidx] at h
    exact absurd h (by simp)
  | case2 idx acc hidx =>
    intro out rest h
    simp only [decodeLineGo, if_neg hidx, Option.some.injEq, Prod.mk.injEq] at h
    obtain ⟨h1, -⟩ := h
    subst h1
    constructor <;> omega
  | case3 b idx acc hidx hb =>
    intro out rest h
    simp only [decodeLineGo, if_pos hidx, if_pos hb] at h
    exact absurd h (by simp)
  | case4 b idx acc hidx hb v rest2 ih =>
    intro out rest h
    simp only [decodeLineGo, if_pos hidx, if_pos hb] at h
    have hc : (b &&& 63) ≤ 63 := Nat.and_le_right
    have h2 := ih out rest h
    rw [List.length_append, List.length_replicate] at h2
    push_cast at h2 ⊢
    constructor <;> omega
  | case5 b rst idx acc hidx hb ih =>
    intro out rest h
    rw [decodeLineGo.eq_def] at h
    simp only [if_pos hidx, if_neg hb] at h
    have h2 := ih out rest h
    rw [List.length_append, List.length_singleton] at h2
    push_cast at h2 ⊢
    constructor <;> omega
  | case6 b rst idx acc hidx =>
    intro out rest h
    rw [decodeLineGo.eq_def] at h
    simp only [if_neg hidx, Option.some.injEq, Prod.mk.injEq] at h
    obtain ⟨h1, -⟩ := h
    subst h1
    constructor <;> omega

/-- Counterexample for claim C5: `decode_line` does not always return exactly
`row_stride_bytes` bytes.  With `row_stride = 1`, the input `[0xC2, 0x07]`
decodes to the two bytes `[7, 7]`: the run header's count 2 exceeds the single
byte still missing from the row and the run is appended whole. -/
theorem decode_line_overshoots_row :
    decodeLine [194, 7] 1 = some [7, 7] ∧
      ∀ out, decodeLine [194, 7] 1 = some out → out.length ≠ 1 := by
  refine ⟨by decide, by decide⟩

/-- Claim C5 (corrected): `decode_line` returns at least `row_stride_bytes`
bytes — exactly that many when no run crosses the end of the row, and up to
62 bytes more when the final run header's count exceeds the bytes still
missing — or fails with `TruncatedStream` when the source ends before the row
is filled (in particular on an empty source and a positive stride). -/
theorem decode_line_row_bounds :
    (∀ (inp : List ℕ) (stride : ℕ) (out : List ℕ), decodeLine inp stride = some out →
      stride ≤ out.length ∧ out.length ≤ stride + 62) ∧
    ∀ stride : ℕ, 0 < stride → decodeLine [] stride = none := by
  constructor
  · intro inp stride out h
    unfold decodeLine at h
    cases hgo : decodeLineGo inp (stride : Int) [] with
    | none => rw [hgo] at h; exact absurd h (by simp)
    | some pr =>
      have h2 := decodeLineGo_length_bound inp (stride : Int) [] pr.1 pr.2 (by rw [hgo])
      rw [hgo] at h
      simp only [Option.map_some', Option.some.injEq] at h
      subst h
      simp only [List.length_nil, Nat.cast_zero, zero_add] at h2
      constructor <;> omega
  · intro stride hs
    unfold decodeLine decodeLineGo
    rw [if_pos (by exact_mod_cast hs)]
    rfl

/-- Instantiation of the `decode_line` bounds at `[0xC2, 7]`, stride 1, and of
the truncation failure on the empty source. -/
theorem decode_line_row_bounds_witness :
    (1 ≤ ([7, 7] : List ℕ).length ∧ ([7, 7] : List ℕ).length ≤ 1 + 62) ∧
      decodeLine [] 1 = none := by
  exact ⟨decode_line_row_bounds.1 [194, 7] 1 [7, 7] (by decide),
    decode_line_row_bounds.2 1 (by decide)⟩

/-! ## Theorems about the palette quantizer -/

/-- The comparator key of `Cube::split` coincides with the key of the axis
read off from the source's two comparisons: when `red < green` the `max`
value equals the green score and differs from the red score, when
`red ≥ green` and `red < blue` it equals the blue score and differs from both
others, and otherwise it equals the red score. -/
theorem cubeKey_eq_axisKey (cs : List RGBTriple) (c : RGBTriple) :
    cubeKey (if lumaRed cs < lumaGreen cs then lumaGreen cs
        else if lumaRed cs < lumaBlue cs then lumaBlue cs else lumaRed cs)
      (lumaRed cs) (lumaGreen cs) c = axisKey (chosenAxis cs) c := by
  by_cases h1 : lumaRed cs < lumaGreen cs
  · rw [if_pos h1]
    rw [cubeKey, if_neg (by omega), if_pos rfl]
    rw [chosenAxis, if_pos h1]
    rfl
  · rw [if_neg h1]
    by_cases h2 : lumaRed cs < lumaBlue cs
    · rw [if_pos h2]
      rw [cubeKey, if_neg (by omega), if_neg (by omega)]
      rw [chosenAxis, if_neg h1, if_pos h2]
      rfl
    · rw [if_neg h2]
      rw [cubeKey, if_pos rfl]
      rw [chosenAxis, if_neg h1, if_neg h2]
      rfl

/-- Counterexample for claim C7: the split axis is not the channel with the
highest score.  For the box `[(0,1,255), (0,2,254)]` the blue score strictly
exceeds the green score (and the green the red), yet the code sorts along the
green channel — the first half of the cut is the color with the smaller green
component, where a blue-axis sort would put the color with blue 254 first. -/
theorem cube_split_ignores_blue_axis :
    chosenAxis [⟨0, 1, 255⟩, ⟨0, 2, 254⟩] = Axis.green ∧
      specAxis [⟨0, 1, 255⟩, ⟨0, 2, 254⟩] = Axis.blue ∧
      lumaGreen [⟨0, 1, 255⟩, ⟨0, 2, 254⟩] < lumaBlue [⟨0, 1, 255⟩, ⟨0, 2, 254⟩] ∧
      Cube.split [⟨0, 1, 255⟩, ⟨0, 2, 254⟩] = ([⟨0, 1, 255⟩], [⟨0, 2, 254⟩]) := by
  refine ⟨by decide, by decide, by decide, by decide⟩

/-- Claim C7 (corrected): the split axis is green when the red score is below
the green score, otherwise blue when the red score is below the blue score,
otherwise red — the green and blue scores are never compared, so the
highest-scoring channel can be passed over; scores are the luma-weighted
plain channel sums over the box's colors (no frequency weighting).  The box
is sorted by the axis channel with the remaining two channels as tie-break
keys in the comparator's fixed order, and cut at the median index. -/
theorem cube_split_characterization (cs : List RGBTriple) :
    Cube.split cs =
      ((sortBy (fun a c => lexLe (axisKey (chosenAxis cs) a) (axisKey (chosenAxis cs) c)) cs).take
          (cs.length / 2),
        (sortBy (fun a c => lexLe (axisKey (chosenAxis cs) a) (axisKey (chosenAxis cs) c)) cs).drop
          (cs.length / 2)) := by
  have hs : sortColors cs =
      sortBy (fun a c => lexLe (axisKey (chosenAxis cs) a) (axisKey (chosenAxis cs) c)) cs := by
    rw [sortColors]
    congr 1
    funext a c
    rw [cubeKey_eq_axisKey, cubeKey_eq_axisKey]
  rw [Cube.split, hs]

/-- Counterexample for claim C8: a box holding a single color is split anyway
and the final boxes may be empty.  Seeding the quantizer with the one-color
palette `[(1,2,3)]` and running the source's four rounds produces sixteen
boxes, fifteen of them empty. -/
theorem single_color_box_still_split :
    roundPcxCubes 4 [⟨1, 2, 3⟩] = List.replicate 15 [] ++ [[⟨1, 2, 3⟩]] := by
  decide

/-- Claim C8 (corrected): the splitting loop never stops early and splits
every box in every round regardless of its size — after `k` rounds there are
exactly `2^k` times as many boxes — and a single-color box splits into an
empty box (kept in place) and the box itself (appended), so final boxes can
be empty. -/
theorem splitting_is_unconditional :
    (∀ (k : ℕ) (cubes : List (List RGBTriple)),
        (roundCubes k cubes).length = 2 ^ k * cubes.length) ∧
      ∀ c : RGBTriple, Cube.split [c] = ([], [c]) := by
  constructor
  · intro k
    induction k with
    | zero => intro cubes; simp [roundCubes]
    | succ n ih =>
      intro cubes
      rw [roundCubes, ih]
      simp only [splitRound, List.length_append, List.length_map]
      ring
  · intro c
    simp [Cube.split, sortColors, sortBy, insertBy]

/-! ## Theorems about the logo overlay -/

/-- Claim C9 (confirmed): on a 24-bpp destination, whenever
`logo_width > dst_width - 15` or `logo_height > dst_height - 15` the overlay
fails with the "Logo bitmap too large" error and the destination buffer is
returned byte-for-byte unmodified — the size check precedes the copy loop, so
no partial mutation happens. -/
theorem add_logo_too_large_no_mutation (data : List ℕ) (w hgt logoW logoH : Int)
    (logoPix : List RGBQuad) (hbig : logoW > w - 15 ∨ logoH > hgt - 15) :
    addLogo data w hgt 24 logoW logoH logoPix = (some LogoError.logoTooLarge, data) := by
  unfold addLogo
  rw [if_neg (by omega : ¬((24 : Int) ≠ 24)), if_pos hbig]

/-- Instantiation of the oversized-logo failure: a 1×1 logo against a 3×3
destination (3 - 15 = -12 < 1) fails and returns the buffer unchanged. -/
theorem add_logo_too_large_no_mutation_witness :
    addLogo [1, 2, 3] 3 3 24 1 1 [] = (some LogoError.logoTooLarge, [1, 2, 3]) :=
  add_logo_too_large_no_mutation [1, 2, 3] 3 3 1 1 [] (by left; decide)

/-! ## Theorems about the border compositor -/

theorem border16Go_nil (w hgt bw bytesPad : Int) (rng : ℕ → ℕ) (fuel : ℕ) (x y : Int) (i : ℕ) :
    border16Go w hgt bw bytesPad rng fuel [] x y i = [] := by
  cases fuel <;> rfl

theorem border24Go_nil (w hgt bw bytesPad : Int) (rng : ℕ → ℕ) (fuel : ℕ) (x y : Int) (i : ℕ) :
    border24Go w hgt bw bytesPad rng fuel [] x y i = [] := by
  cases fuel <;> rfl

theorem borderLowGo_nil (w hgt bw bc bytesPad : Int) (pixels maxColor : ℕ) (rng : ℕ → ℕ)
    (fuel : ℕ) (x y : Int) (i : ℕ) :
    borderLowGo w hgt bw bc bytesPad pixels maxColor rng fuel [] x y i = [] := by
  cases fuel <;> rfl

/-- With a negative border width, every position the 1/4/8-bpp pixel loop
visits fails the border condition, so the byte and the draw index are
untouched and the loop acts as a pure cursor advance: it either ends the row
(cursor to `(0, y + 1)`) or adds the slot count to `x`. -/
theorem borderLowPix_no_write (w hgt bw bc : Int) (maxColor : ℕ) (rng : ℕ → ℕ)
    (hbw : bw < 0) (k : ℕ) :
    ∀ (b : ℕ) (x y : Int) (i : ℕ), 0 ≤ x → x < w → 0 ≤ y → y ≤ hgt →
      (x + k < w → borderLowPix w hgt bw bc maxColor rng k b x y i = (b, x + k, y, i, false)) ∧
        (x + k ≥ w → borderLowPix w hgt bw bc maxColor rng k b x y i = (b, 0, y + 1, i, true)) := by
  induction k with
  | zero =>
    intro b x y i hx hxw hy hyh
    refine ⟨fun hlt => by simp [borderLowPix], fun hge => absurd hge (by push_cast; omega)⟩
  | succ k ih =>
    intro b x y i hx hxw hy hyh
    have hcond : ¬(x ≤ bw ∨ x > w - bw ∨ y ≤ bw ∨ y > hgt - bw) := by omega
    constructor
    · intro hlt
      have hk : ((k : ℕ) + 1 : ℕ) = k + 1 := rfl
      have hx1 : ¬(x + 1 ≥ w) := by push_cast at hlt; omega
      rw [borderLowPix]
      simp only [if_neg hcond, if_neg hx1]
      have hrec := (ih b (x + 1) y i (by omega) (by omega) hy hyh).1
        (by push_cast at hlt ⊢; omega)
      rw [hrec]
      exact congrArg (fun t => (b, t, y, i, false)) (by push_cast; ring)
    · intro hge
      rw [borderLowPix]
      simp only [if_neg hcond]
      by_cases hx1 : x + 1 ≥ w
      · rw [if_pos hx1]
      · rw [if_neg hx1]
        exact (ih b (x + 1) y i (by omega) (by omega) hy hyh).2 (by push_cast at hge ⊢; omega)

/-- With a negative border width the 1/4/8-bpp border loop is the identity on
any buffer no longer than the bytes remaining in the raster from the cursor
position (per-row budget: `ceil((w - x) / pixels)` pixel bytes plus the pad). -/
theorem borderLowGo_no_op (w hgt bw bc bytesPad : Int) (pixels maxColor : ℕ) (rng : ℕ → ℕ)
    (hbw : bw < 0) (hw : 0 < w) (hpad : 0 ≤ bytesPad) (hpix : 0 < (pixels : Int)) :
    ∀ (fuel : ℕ) (inp : List ℕ) (x y : Int) (i : ℕ), 0 ≤ x → x < w → 0 ≤ y →
      (inp.length : Int) ≤ (w - x + pixels - 1) / pixels + bytesPad +
        ((w + pixels - 1) / pixels + bytesPad) * (hgt - 1 - y) →
      borderLowGo w hgt bw bc bytesPad pixels maxColor rng fuel inp x y i = inp := by
  intro fuel
  induction fuel with
  | zero => intro inp x y i _ _ _ _; rfl
  | succ fuel ih =>
    intro inp x y i hx hxw hy hlen
    rcases inp with - | ⟨b, rest⟩
    · rfl
    · have hA0 : 0 ≤ (w - x + (pixels : Int) - 1) / pixels :=
        Int.ediv_nonneg (by omega) (by omega)
      have hAB : (w - x + (pixels : Int) - 1) / pixels ≤ (w + pixels - 1) / pixels :=
        Int.ediv_le_ediv hpix (by omega)
      have hB0 : 0 ≤ (w + (pixels : Int) - 1) / pixels := le_trans hA0 hAB
      simp only [List.length_cons] at hlen
      push_cast at hlen
      have hy1 : y ≤ hgt - 1 := by
        rcases le_or_lt y (hgt - 1) with h | h
        · exact h
        · exfalso
          have hmul := mul_le_mul_of_nonneg_left (show hgt - 1 - y ≤ -1 by omega)
            (show (0 : Int) ≤ (w + pixels - 1) / pixels + bytesPad by omega)
          have he : ((w + (pixels : Int) - 1) / pixels + bytesPad) * (-1) =
              -((w + (pixels : Int) - 1) / pixels + bytesPad) := by ring
          rw [he] at hmul
          omega
      have hpix' := borderLowPix_no_write w hgt bw bc maxColor rng hbw pixels b x y i
        hx hxw hy (by omega)
      by_cases hend : x + (pixels : Int) ≥ w
      · have hA1 : (w - x + (pixels : Int) - 1) / pixels ≤ 1 := by
          have h2 : (w - x + (pixels : Int) - 1) / pixels < 2 := by
            rw [Int.ediv_lt_iff_lt_mul hpix]
            omega
          omega
        have hring : ((w + (pixels : Int) - 1) / pixels + bytesPad) * (hgt - 1 - y) =
            ((w + (pixels : Int) - 1) / pixels + bytesPad) +
              ((w + (pixels : Int) - 1) / pixels + bytesPad) * (hgt - 1 - (y + 1)) := by ring
        have h0 : (w - 0 + (pixels : Int) - 1) / pixels = (w + (pixels : Int) - 1) / pixels := by
          norm_num
        rw [borderLowGo]
        by_cases hrl : rest.length ≤ bytesPad.toNat
        · simp [hpix'.2 hend, List.take_of_length_le hrl, List.drop_eq_nil_of_le hrl,
            borderLowGo_nil]
        · push_neg at hrl
          have hton : (bytesPad.toNat : Int) = bytesPad := Int.toNat_of_nonneg hpad
          have hdl : ((rest.drop bytesPad.toNat).length : Int) =
              (rest.length : Int) - bytesPad := by
            rw [List.length_drop, Nat.cast_sub (le_of_lt hrl), hton]
          have hrec := ih (rest.drop bytesPad.toNat) 0 (y + 1) i le_rfl hw (by omega)
            (by rw [hdl, h0]; omega)
          simp [hpix'.2 hend, hrec, List.take_append_drop]
      · push_neg at hend
        have hstep : (w - x + (pixels : Int) - 1) / pixels =
            (w - (x + pixels) + (pixels : Int) - 1) / pixels + 1 := by
          have h4 : w - x + (pixels : Int) - 1 =
              (w - (x + pixels) + (pixels : Int) - 1) + 1 * pixels := by ring
          rw [h4, Int.add_mul_ediv_right _ _ (by omega : (pixels : Int) ≠ 0)]
        have hrec := ih rest (x + pixels) y i (by omega) (by omega) hy (by omega)
        rw [borderLowGo]
        simp [hpix'.1 hend, hrec]

/-- With a nonpositive border width the 16-bpp border loop is the identity on
any buffer no longer than the raster bytes remaining from the cursor. -/
theorem border16Go_no_op (w hgt bw bytesPad : Int) (rng : ℕ → ℕ)
    (hbw : bw ≤ 0) (hw : 0 < w) (hpad : 0 ≤ bytesPad) :
    ∀ (fuel : ℕ) (inp : List ℕ) (x y : Int) (i : ℕ), 0 ≤ x → x < w → 0 ≤ y →
      (inp.length : Int) ≤ 2 * (w - x) + bytesPad + (2 * w + bytesPad) * (hgt - 1 - y) →
      border16Go w hgt bw bytesPad rng fuel inp x y i = inp := by
  intro fuel
  induction fuel with
  | zero => intro inp x y i _ _ _ _; rfl
  | succ fuel ih =>
    intro inp x y i hx hxw hy hlen
    rcases inp with - | ⟨b1, - | ⟨b2, rest⟩⟩
    · rfl
    · rfl
    · simp only [List.length_cons] at hlen
      push_cast at hlen
      have hy1 : y ≤ hgt - 1 := by
        rcases le_or_lt y (hgt - 1) with h | h
        · exact h
        · exfalso
          have hmul := mul_le_mul_of_nonneg_left (show hgt - 1 - y ≤ -1 by omega)
            (show (0 : Int) ≤ 2 * w + bytesPad by omega)
          have he : (2 * w + bytesPad) * (-1) = -(2 * w + bytesPad) := by ring
          rw [he] at hmul
          omega
      have hcond : ¬(x < bw ∨ x > w - bw ∨ y < bw ∨ y > hgt - bw) := by omega
      rw [border16Go]
      simp only [if_neg hcond]
      have hring : (2 * w + bytesPad) * (hgt - 1 - y) =
          (2 * w + bytesPad) + (2 * w + bytesPad) * (hgt - 1 - (y + 1)) := by ring
      by_cases hend : x + 1 ≥ w
      · rw [if_pos hend]
        by_cases hrl : rest.length ≤ bytesPad.toNat
        · rw [List.take_of_length_le hrl, List.drop_eq_nil_of_le hrl, border16Go_nil,
            List.append_nil]
        · push_neg at hrl
          have hton : (bytesPad.toNat : Int) = bytesPad := Int.toNat_of_nonneg hpad
          have hdl : ((rest.drop bytesPad.toNat).length : Int) =
              (rest.length : Int) - bytesPad := by
            rw [List.length_drop, Nat.cast_sub (le_of_lt hrl), hton]
          rw [ih (rest.drop bytesPad.toNat) 0 (y + 1) i le_rfl hw (by omega)
            (by rw [hdl]; omega), List.take_append_drop]
      · rw [if_neg hend]
        rw [ih rest (x + 1) y i (by omega) (by omega) hy (by omega)]

/-- With a nonpositive border width the 24-bpp border loop is the identity on
any buffer no longer than the raster bytes remaining from the cursor. -/
theorem border24Go_no_op (w hgt bw bytesPad : Int) (rng : ℕ → ℕ)
    (hbw : bw ≤ 0) (hw : 0 < w) (hpad : 0 ≤ bytesPad) :
    ∀ (fuel : ℕ) (inp : List ℕ) (x y : Int) (i : ℕ), 0 ≤ x → x < w → 0 ≤ y →
      (inp.length : Int) ≤ 3 * (w - x) + bytesPad + (3 * w + bytesPad) * (hgt - 1 - y) →
      border24Go w hgt bw bytesPad rng fuel inp x y i = inp := by
  intro fuel
  induction fuel with
  | zero => intro inp x y i _ _ _ _; rfl
  | succ fuel ih =>
    intro inp x y i hx hxw hy hlen
    rcases inp with - | ⟨b1, - | ⟨b2, - | ⟨b3, rest⟩⟩⟩
    · rfl
    · rfl
    · rfl
    · simp only [List.length_cons] at hlen
      push_cast at hlen
      have hy1 : y ≤ hgt - 1 := by
        rcases le_or_lt y (hgt - 1) with h | h
        · exact h
        · exfalso
          have hmul := mul_le_mul_of_nonneg_left (show hgt - 1 - y ≤ -1 by omega)
            (show (0 : Int) ≤ 3 * w + bytesPad by omega)
          have he : (3 * w + bytesPad) * (-1) = -(3 * w + bytesPad) := by ring
          rw [he] at hmul
          omega
      have hcond : ¬(x < bw ∨ x > w - bw ∨ y < bw ∨ y > hgt - bw) := by omega
      rw [border24Go]
      simp only [if_neg hcond]
      have hring : (3 * w + bytesPad) * (hgt - 1 - y) =
          (3 * w + bytesPad) + (3 * w + bytesPad) * (hgt - 1 - (y + 1)) := by ring
      by_cases hend : x + 1 ≥ w
      · rw [if_pos hend]
        by_cases hrl : rest.length ≤ bytesPad.toNat
        · rw [List.take_of_length_le hrl, List.drop_eq_nil_of_le hrl, border24Go_nil,
            List.append_nil]
        · push_neg at hrl
          have hton : (bytesPad.toNat : Int) = bytesPad := Int.toNat_of_nonneg hpad
          have hdl : ((rest.drop bytesPad.toNat).length : Int) =
              (rest.length : Int) - bytesPad := by
            rw [List.length_drop, Nat.cast_sub (le_of_lt hrl), hton]
          rw [ih (rest.drop bytesPad.toNat) 0 (y + 1) i le_rfl hw (by omega)
            (by rw [hdl]; omega), List.take_append_drop]
      · rw [if_neg hend]
        rw [ih rest (x + 1) y i (by omega) (by omega) hy (by omega)]

/-- Arithmetic core of the raster-length side condition: a buffer bounded by
`stride * height` is bounded by the per-row byte budget of the border loops
whenever the budget of one row is at least the stride. -/
theorem border_len_bound (S A B pad len hgt : Int) (hh : 0 ≤ hgt) (hAB : A = B)
    (hSR : S ≤ B + pad) (hlen : len ≤ S * hgt) : len ≤ A + pad + (B + pad) * (hgt - 1 - 0) := by
  rw [hAB]
  have h1 : len ≤ (B + pad) * hgt := le_trans hlen (mul_le_mul_of_nonneg_right hSR hh)
  have h2 : (B + pad) * hgt = B + pad + (B + pad) * (hgt - 1 - 0) := by ring
  omega

/-- Counterexample for claim C6: `border_width = 0` is not a no-op at 8 bpp.
The 1/4/8 path tests `x <= bw || y <= bw`, so with `bw = 0` the `x = 0`
column and the `y = 0` row are randomized: on the 2×2 raster
`[1,2,3,4,5,6,7,8]` (stride 4) with a random stream that always yields 7,
three bytes change. -/
theorem border_zero_width_changes_8bpp :
    Bitmap.border [1, 2, 3, 4, 5, 6, 7, 8] 0 2 2 8 (fun _ => 7) =
        some [7, 7, 3, 4, 7, 6, 7, 8] ∧
      ([7, 7, 3, 4, 7, 6, 7, 8] : List ℕ) ≠ [1, 2, 3, 4, 5, 6, 7, 8] := by
  refine ⟨by decide, by decide⟩

/-- Claim C6 (corrected): on a raster buffer of at most `row_stride * height`
bytes with positive width, `Bitmap::border` leaves every byte unchanged for
every `border_width < 0` at all supported depths 1/4/8/16/24, and also at
`border_width = 0` for depths 16 and 24 (whose border test is strict); at
depths 1/4/8 the test is non-strict, so `border_width = 0` randomizes the
first row and column instead. -/
theorem border_nonpositive_width_no_op (data : List ℕ) (bw w hgt bc : Int) (rng : ℕ → ℕ)
    (hw : 0 < w) (hh : 0 ≤ hgt) (hlen : (data.length : Int) ≤ rowStrideOf bc w * hgt) :
    ((bc = 1 ∨ bc = 4 ∨ bc = 8 ∨ bc = 16 ∨ bc = 24) → bw < 0 →
        Bitmap.border data bw w hgt bc rng = some data) ∧
      ((bc = 16 ∨ bc = 24) → bw ≤ 0 → Bitmap.border data bw w hgt bc rng = some data) := by
  have h16 : bc = 16 → bw ≤ 0 → Bitmap.border data bw w hgt bc rng = some data := by
    rintro rfl hbw
    rw [Bitmap.border, if_neg (by norm_num), if_pos rfl]
    congr 1
    have hSVal : rowStrideOf 16 w = (16 * w + 31) / 32 * 4 := by
      rw [rowStrideOf, Int.tdiv_eq_ediv (by omega) (by omega)]
    have hpadVal : borderBytesPad 16 w = (16 * w + 31) / 32 * 4 - (w * 16) / 8 := by
      rw [borderBytesPad, Int.tdiv_eq_ediv (by omega) (by omega),
        Int.tdiv_eq_ediv (by omega) (by omega)]
    have hpad : 0 ≤ borderBytesPad 16 w := by rw [hpadVal]; omega
    rw [hSVal] at hlen
    exact border16Go_no_op w hgt bw (borderBytesPad 16 w) rng hbw hw hpad data.length data
      0 0 0 le_rfl hw le_rfl
      (border_len_bound _ _ _ _ _ _ hh (by omega) (by rw [hpadVal]; omega) hlen)
  have h24 : bc = 24 → bw ≤ 0 → Bitmap.border data bw w hgt bc rng = some data := by
    rintro rfl hbw
    rw [Bitmap.border, if_neg (by norm_num), if_neg (by norm_num), if_pos rfl]
    congr 1
    have hSVal : rowStrideOf 24 w = (24 * w + 31) / 32 * 4 := by
      rw [rowStrideOf, Int.tdiv_eq_ediv (by omega) (by omega)]
    have hpadVal : borderBytesPad 24 w = (24 * w + 31) / 32 * 4 - (w * 24) / 8 := by
      rw [borderBytesPad, Int.tdiv_eq_ediv (by omega) (by omega),
        Int.tdiv_eq_ediv (by omega) (by omega)]
    have hpad : 0 ≤ borderBytesPad 24 w := by rw [hpadVal]; omega
    rw [hSVal] at hlen
    exact border24Go_no_op w hgt bw (borderBytesPad 24 w) rng hbw hw hpad data.length data
      0 0 0 le_rfl hw le_rfl
      (border_len_bound _ _ _ _ _ _ hh (by omega) (by rw [hpadVal]; omega) hlen)
  constructor
  · rintro (rfl | rfl | rfl | h1624 | h1624) hbw
    · rw [Bitmap.border, if_pos (by norm_num)]
      rw [show (((8 : Int).tdiv 1).toNat) = 8 from by decide,
        show (2 : ℕ) ^ ((1 : Int)).toNat = 2 from by decide]
      congr 1
      have hSVal : rowStrideOf 1 w = (1 * w + 31) / 32 * 4 := by
        rw [rowStrideOf, Int.tdiv_eq_ediv (by omega) (by omega)]
      have hpadVal : borderBytesPad 1 w = (1 * w + 31) / 32 * 4 - (w * 1) / 8 := by
        rw [borderBytesPad, Int.tdiv_eq_ediv (by omega) (by omega),
          Int.tdiv_eq_ediv (by omega) (by omega)]
      have hpad : 0 ≤ borderBytesPad 1 w := by rw [hpadVal]; omega
      rw [hSVal] at hlen
      exact borderLowGo_no_op w hgt bw 1 (borderBytesPad 1 w) 8 2 rng hbw hw hpad
        (by norm_num) data.length data 0 0 0 le_rfl hw le_rfl
        (border_len_bound _ _ _ _ _ _ hh (by push_cast; omega)
          (by rw [hpadVal]; push_cast; omega) hlen)
    · rw [Bitmap.border, if_pos (by norm_num)]
      rw [show (((8 : Int).tdiv 4).toNat) = 2 from by decide,
        show (2 : ℕ) ^ ((4 : Int)).toNat = 16 from by decide]
      congr 1
      have hSVal : rowStrideOf 4 w = (4 * w + 31) / 32 * 4 := by
        rw [rowStrideOf, Int.tdiv_eq_ediv (by omega) (by omega)]
      have hpadVal : borderBytesPad 4 w = (4 * w + 31) / 32 * 4 - (w * 4) / 8 := by
        rw [borderBytesPad, Int.tdiv_eq_ediv (by omega) (by omega),
          Int.tdiv_eq_ediv (by omega) (by omega)]
      have hpad : 0 ≤ borderBytesPad 4 w := by rw [hpadVal]; omega
      rw [hSVal] at hlen
      exact borderLowGo_no_op w hgt bw 4 (borderBytesPad 4 w) 2 16 rng hbw hw hpad
        (by norm_num) data.length data 0 0 0 le_rfl hw le_rfl
        (border_len_bound _ _ _ _ _ _ hh (by push_cast; omega)
          (by rw [hpadVal]; push_cast; omega) hlen)
    · rw [Bitmap.border, if_pos (by norm_num)]
      rw [show (((8 : Int).tdiv 8).toNat) = 1 from by decide,
        show (2 : ℕ) ^ ((8 : Int)).toNat = 256 from by decide]
      congr 1
      have hSVal : rowStrideOf 8 w = (8 * w + 31) / 32 * 4 := by
        rw [rowStrideOf, Int.tdiv_eq_ediv (by omega) (by omega)]
      have hpadVal : borderBytesPad 8 w = (8 * w + 31) / 32 * 4 - (w * 8) / 8 := by
        rw [borderBytesPad, Int.tdiv_eq_ediv (by omega) (by omega),
          Int.tdiv_eq_ediv (by omega) (by omega)]
      have hpad : 0 ≤ borderBytesPad 8 w := by rw [hpadVal]; omega
      rw [hSVal] at hlen
      exact borderLowGo_no_op w hgt bw 8 (borderBytesPad 8 w) 1 256 rng hbw hw hpad
        (by norm_num) data.length data 0 0 0 le_rfl hw le_rfl
        (border_len_bound _ _ _ _ _ _ hh (by push_cast; omega)
          (by rw [hpadVal]; push_cast; omega) hlen)
    · exact h16 h1624 (le_of_lt hbw)
    · exact h24 h1624 (le_of_lt hbw)
  · rintro (h1624 | h1624) hbw
    · exact h16 h1624 hbw
    · exact h24 h1624 hbw

/-- Instantiation of the border no-op: a 1×1 24-bpp raster is unchanged both
at border width -1 and at border width 0. -/
theorem border_nonpositive_width_no_op_witness :
    Bitmap.border [5, 6, 7] (-1) 1 1 24 (fun _ => 3) = some [5, 6, 7] ∧
      Bitmap.border [5, 6, 7] 0 1 1 24 (fun _ => 3) = some [5, 6, 7] := by
  constructor
  · exact (border_nonpositive_width_no_op [5, 6, 7] (-1) 1 1 24 (fun _ => 3) (by decide)
      (by decide) (by decide)).1 (Or.inr (Or.inr (Or.inr (Or.inr rfl)))) (by decide)
  · exact (border_nonpositive_width_no_op [5, 6, 7] 0 1 1 24 (fun _ => 3) (by decide)
      (by decide) (by decide)).2 (Or.inr rfl) le_rfl

end Bmper
